import Mathlib

/-!
Verification of the to-uni substitution engine against its specification.

The development shallowly embeds the Rust sources:
  * `src/error.rs`   — the `UniError` model (major/minor codes, constructors),
  * `src/config.rs`  — configuration parsing and the output close protocol,
  * `src/conversion.rs` — the automaton set-up, lookup map and substitution driver.
Byte strings are modelled as `List Nat`; file contents and patterns follow the
byte-level view the Rust code takes (`as_bytes`, byte slicing `&p[1..]`).
The chunked scanner and the Aho-Corasick automaton live in a forked
`aho_corasick` dependency that is not part of this repository's sources; where
a claim depends on their behaviour the definitions are modelled from the
specification (marked `Modelled from the spec:`).
-/

namespace ToUni

/-- Byte strings: Rust byte slices / `String` contents viewed as bytes. -/
abbrev Bytes := List Nat

/-! ## Error model (src/error.rs) -/

/-- Opaque stand-in for `std::io::Error` (only its presence matters). -/
structure IoError where
  msg : String
deriving Repr, DecidableEq

/-- Opaque stand-in for `yaml::ScanError`. -/
structure ScanError where
  msg : String
deriving Repr, DecidableEq

/-- `UniErrorData` from src/error.rs: error data specific to particular error kinds. -/
inductive UniErrorData where
  | Io : IoError → UniErrorData
  | FsIo : String → IoError → UniErrorData
  | Internal : String → UniErrorData
  | Usage : String → UniErrorData
  | YamlScan : String → ScanError → UniErrorData
deriving Repr, DecidableEq

/-- `UniErrorData::default_code_major_minor` (src/error.rs lines 82-91):
returns the `(major, minor)` pair for each variant. -/
def UniErrorData.default_code_major_minor : UniErrorData → Nat × Nat
  | UniErrorData.Io _ => (1, 0)
  | UniErrorData.FsIo _ _ => (2, 0)
  | UniErrorData.Internal _ => (9, 0)
  | UniErrorData.Usage _ => (0, 1)
  | UniErrorData.YamlScan _ _ => (3, 0)

/-- `UniError` from src/error.rs: major code, minor code, data.
The Rust fields are `u8`; values are carried as `Nat` and the `u8`
arithmetic of `error_code` is made explicit with `% 256`. -/
structure UniError where
  code_major : Nat
  code_minor : Nat
  data : UniErrorData
deriving Repr, DecidableEq

/-- `UniError::error_code` (src/error.rs lines 24-26): `code_major*10 + code_minor`
computed in `u8` arithmetic. -/
def UniError.error_code (e : UniError) : Nat :=
  (e.code_major * 10 + e.code_minor) % 256

/-- `UniError::new(minor, data)` (src/error.rs lines 28-33): major from the
data variant's default, minor as given. -/
def UniError.new (minor : Nat) (data : UniErrorData) : UniError :=
  let md := data.default_code_major_minor
  { code_major := md.1, code_minor := minor, data := data }

/-- `UniError::with_minor` (src/error.rs lines 35-38). -/
def UniError.with_minor (e : UniError) (minor : Nat) : UniError :=
  { e with code_minor := minor }

/-- `error::usage(message)` (src/error.rs lines 60-66). The Rust source
destructures `data.default_code_major_minor()` as `let (minor, major) = ...`,
binding the tuple's first component (the default major) to the name `minor`
and the second (the default minor) to the name `major`. -/
def usage (message : String) : UniError :=
  let data := UniErrorData.Usage message
  let minor := data.default_code_major_minor.1
  let major := data.default_code_major_minor.2
  { code_minor := minor, code_major := major, data := data }

/-- `impl From<io::Error> for UniError` (src/error.rs lines 166-174). -/
def fromIoError (err : IoError) : UniError :=
  let data := UniErrorData.Io err
  let md := data.default_code_major_minor
  { code_major := md.1, code_minor := md.2, data := data }

/-- `DetailedFrom<io::Error, (String, u8)>` (src/error.rs lines 176-184):
path-tagged file-system I/O error with a caller-supplied minor code. -/
def detailedFromIoPath (err : IoError) (path : String) (minor : Nat) : UniError :=
  let data := UniErrorData.FsIo path err
  let md := data.default_code_major_minor
  { code_major := md.1, code_minor := minor, data := data }

/-- `DetailedFrom<String, u8>` (src/error.rs lines 186-194): internal error. -/
def detailedFromInternal (s : String) (minor : Nat) : UniError :=
  let data := UniErrorData.Internal s
  let md := data.default_code_major_minor
  { code_major := md.1, code_minor := minor, data := data }

/-- `DetailedFrom<yaml::ScanError, String>` (src/error.rs lines 206-214). -/
def detailedFromYamlScan (err : ScanError) (path : String) : UniError :=
  let data := UniErrorData.YamlScan path err
  let md := data.default_code_major_minor
  { code_major := md.1, code_minor := md.2, data := data }

/-! Minor-code constants from the `code` module of src/error.rs. -/

def code_fsio_INPUT : Nat := 2
def code_fsio_OUTPUT : Nat := 3
def code_fsio_OUTPUT_BACKUP : Nat := 4
def code_fsio_CONFIG : Nat := 5
def code_internal_MISC : Nat := 8
def code_usage_MISSING_OUTPUT_FILE_NAME : Nat := 4
def code_usage_MISSING_OUTPUT : Nat := 5
def code_usage_INPUT_NOT_A_FILE : Nat := 6
def code_usage_NO_CONFIG_FILE : Nat := 7
def code_usage_INVALID_CONFIG_FILE : Nat := 8

/-- The minor codes the program passes to error constructors at its call
sites (src/config.rs, src/conversion.rs): every call site uses one of the
constants of the `code` module. -/
def programMinors : List Nat :=
  [code_fsio_INPUT, code_fsio_OUTPUT, code_fsio_OUTPUT_BACKUP, code_fsio_CONFIG,
   code_internal_MISC,
   code_usage_MISSING_OUTPUT_FILE_NAME, code_usage_MISSING_OUTPUT,
   code_usage_INPUT_NOT_A_FILE, code_usage_NO_CONFIG_FILE,
   code_usage_INVALID_CONFIG_FILE]

/-- `Input::open` failure path (src/config.rs lines 67-74): a failed
`fs::File::open` is converted with `try_!(…, path, code::fsio::INPUT)`,
i.e. the `DetailedFrom<io::Error, (String, u8)>` conversion. -/
def inputOpenError (path : String) (err : IoError) : UniError :=
  detailedFromIoPath err path code_fsio_INPUT

/-! ## Configuration parsing (src/config.rs) -/

/-- The `yaml_rust::Yaml` AST, restricted to the constructors the program
distinguishes. A `hash` is the sequence of key/value entries in iteration
order (the Rust map is iterated with `for (k,v) in raw_pats`). -/
inductive Yaml where
  | str : String → Yaml
  | int : Int → Yaml
  | bool : Bool → Yaml
  | arr : List Yaml → Yaml
  | hash : List (Yaml × Yaml) → Yaml
  | null : Yaml

/-- Whether a Yaml key equals the probe `Yaml::String("patterns")` used by
`parse_config` (src/config.rs line 343). -/
def Yaml.isPatternsKey : Yaml → Bool
  | Yaml.str s => s == "patterns"
  | _ => false

/-- Indexing `top_level[&pattern_key]` (src/config.rs line 345): the Rust map
`Index` implementation returns the value when the key is present and
**panics** (`no entry found for key`) when it is absent; `none` models the
panic. -/
def hashIndexPatterns (entries : List (Yaml × Yaml)) : Option Yaml :=
  (entries.find? (fun e => e.1.isPatternsKey)).map (fun e => e.2)

/-- `Configuration::parse_pattern_entry` (src/config.rs lines 317-339):
string key and string value are accepted, anything else is a usage error
with minor `INVALID_CONFIG_FILE`. -/
def parse_pattern_entry (raw_key raw_value : Yaml) :
    Except UniError (String × String) :=
  match raw_key with
  | Yaml.str key =>
    match raw_value with
    | Yaml.str value => Except.ok (key, value)
    | _ => Except.error ((usage "Expected value of key to be a string.").with_minor
        code_usage_INVALID_CONFIG_FILE)
  | _ => Except.error ((usage "Expected string key.").with_minor
      code_usage_INVALID_CONFIG_FILE)

/-- `HashMap::insert` on the association-list model of
`patterns: HashMap<String, String>`: an existing key's value is silently
overwritten, otherwise the entry is appended. -/
def insertPattern (m : List (String × String)) (key value : String) :
    List (String × String) :=
  match m with
  | [] => [(key, value)]
  | e :: rest =>
    if e.1 = key then (key, value) :: rest
    else e :: insertPattern rest key value

/-- The `for (k,v) in raw_pats` loop body of `Configuration::parse_config`
(src/config.rs lines 346-351): parse each entry, inserting into the map,
propagating the first entry error. -/
def parsePatternEntries (entries : List (Yaml × Yaml))
    (patterns : List (String × String)) :
    Except UniError (List (String × String)) :=
  match entries with
  | [] => Except.ok patterns
  | (k, v) :: rest =>
    match parse_pattern_entry k v with
    | Except.error e => Except.error e
    | Except.ok (key, value) => parsePatternEntries rest (insertPattern patterns key value)

/-- `Configuration::parse_config` (src/config.rs lines 341-366). The outer
`Option` models the Rust panic: `none` means the process crashes (the map
`Index` on a missing `patterns` key), `some` means a value is returned to
the caller. -/
def parse_config (raw_config : Yaml) :
    Option (Except UniError (List (String × String))) :=
  match raw_config with
  | Yaml.hash top_level =>
    match hashIndexPatterns top_level with
    | none => none
    | some (Yaml.hash raw_pats) => some (parsePatternEntries raw_pats [])
    | some _ => some (Except.error ((usage
        "Expected top-level dictionary of config file to contain a dictionary called patterns.").with_minor
        code_usage_INVALID_CONFIG_FILE))
  | _ => some (Except.error ((usage
      "Expected top-level of config file to be a dictionary.").with_minor
      code_usage_INVALID_CONFIG_FILE))

/-! ## Automaton set-up and substitution driver (src/conversion.rs) -/

/-- The escape marker byte: `format!("\\{}", p)` (src/conversion.rs line 21)
prefixes each bare token with a single backslash, byte value 92. -/
def escMarker : Nat := 92

/-- The pattern table `config.patterns` as an association list from bare
token to replacement, both as byte strings. A `HashMap` never holds two
entries with the same key, expressed where needed as
`(tbl.map Prod.fst).Nodup`. -/
abbrev PatternTable := List (Bytes × Bytes)

/-- `config.patterns[&k]` — `HashMap` lookup; the Rust `Index` panics when
the key is absent, modelled by `none`. -/
def lookupTbl (tbl : PatternTable) (k : Bytes) : Option Bytes :=
  (tbl.find? (fun e => e.1 == k)).map (fun e => e.2)

/-- The search-pattern list handed to `AcAutomaton::new`
(src/conversion.rs line 21): every key prefixed with the escape marker.
`keys` is the pattern table's key set in the iteration order the `HashMap`
happens to produce. -/
def searchPatterns (keys : List Bytes) : List Bytes :=
  keys.map (fun k => escMarker :: k)

/-- `automaton.patterns().iter().map(|p| &config.patterns[&p[1..]]).collect()`
(src/conversion.rs line 22): the table is probed with each search pattern
minus its one-byte marker; a missing key panics (`none`). -/
def mkLookupMapAux (tbl : PatternTable) : List Bytes → Option (List Bytes)
  | [] => some []
  | p :: ps =>
    match lookupTbl tbl (p.drop 1), mkLookupMapAux tbl ps with
    | some r, some rs => some (r :: rs)
    | _, _ => none

/-- The `lookup_map` of src/conversion.rs line 22, built over the search
patterns derived from the key iteration order `keys`. -/
def mkLookupMap (tbl : PatternTable) (keys : List Bytes) : Option (List Bytes) :=
  mkLookupMapAux tbl (searchPatterns keys)

/-- `StreamChunk` from the chunked scanner interface: a `Matching` segment
carries the matched pattern's index `pati`, a `NonMatching` segment carries
the literal bytes. -/
inductive StreamChunk where
  | Matching : Nat → StreamChunk
  | NonMatching : Bytes → StreamChunk
deriving Repr, DecidableEq

/-- One iteration of the driver closure (src/conversion.rs lines 31-43):
select `lookup_map[m.pati]` for a match (`none` models the index panic on an
out-of-range index) and the raw bytes for a literal. -/
def writeChunk (lm : List Bytes) : StreamChunk → Option Bytes
  | StreamChunk.Matching i => lm[i]?
  | StreamChunk.NonMatching bs => some bs

/-- The driver loop over the emitted segment sequence, accumulating the
bytes passed to `output.write_all` in order. -/
def runDriverAux (lm : List Bytes) : List StreamChunk → Bytes → Option Bytes
  | [], acc => some acc
  | c :: cs, acc =>
    match writeChunk lm c with
    | none => none
    | some bs => runDriverAux lm cs (acc ++ bs)

/-- The substitution driver of `run` (src/conversion.rs lines 31-48): the
bytes written to the sink for a chunk sequence, in emission order. -/
def runDriver (lm : List Bytes) (chunks : List StreamChunk) : Option Bytes :=
  runDriverAux lm chunks []

/-- The bytes C1 expects for one segment: literals verbatim, the configured
replacement (the i-th table entry's value) for a match of pattern i. -/
def renderChunk (tbl : PatternTable) : StreamChunk → Bytes
  | StreamChunk.NonMatching bs => bs
  | StreamChunk.Matching i => (tbl.getD i ([], [])).2

/-! ## The chunked stream scanner

Modelled from the spec: the scanner (`aho_corasick::chunked::StreamChunks`)
and the matching automaton live in a forked `aho_corasick` dependency that
is not part of this repository's sources. Following §4.2/§4.3 of the spec,
a match is the earliest-starting, then shortest pattern occurrence at or
after the cursor, and the "No boundary loss" property of §8 (the segment
sequence is independent of the block size) licenses scanning the whole
input at once. -/

/-- Modelled from the spec: whether pattern `p` (which must be non-empty —
every search pattern starts with the escape marker) occurs in `input` at
position `s`. -/
def matchesAtB (input p : Bytes) (s : Nat) : Bool :=
  !p.isEmpty && p.isPrefixOf (input.drop s)

/-- Modelled from the spec: the indices of all patterns matching at
position `s`. -/
def candIdxs (pats : List Bytes) (input : Bytes) (s : Nat) : List Nat :=
  (List.range pats.length).filter (fun i => matchesAtB input (pats.getD i []) s)

/-- Keep the index whose pattern is strictly shorter (ties keep the
earlier-declared index). -/
def shorterIdx (pats : List Bytes) (i j : Nat) : Nat :=
  if (pats.getD j []).length < (pats.getD i []).length then j else i

/-- The index of the shortest-declared pattern among the candidates. -/
def shortestIdx (pats : List Bytes) : List Nat → Nat
  | [] => 0
  | c :: cs => cs.foldl (shorterIdx pats) c

/-- Modelled from the spec (§4.2): the earliest-starting, then shortest
match at or after position `s`, as `(start, pattern index)`; `fuel` bounds
the scan of start positions. -/
def findMatch (pats : List Bytes) (input : Bytes) : Nat → Nat → Option (Nat × Nat)
  | 0, _ => none
  | fuel + 1, s =>
    match candIdxs pats input s with
    | [] => findMatch pats input fuel (s + 1)
    | c :: cs => some (s, shortestIdx pats (c :: cs))

/-- Modelled from the spec (§4.3): emit a literal for the bytes before each
match, a `Matching` segment per match, and flush the remainder as a final
literal; `fuel` bounds the number of matches (the cursor advances by at
least one byte per match). -/
def scanAux (pats : List Bytes) (input : Bytes) : Nat → Nat → List StreamChunk
  | 0, cursor =>
    if input.length ≤ cursor then [] else [StreamChunk.NonMatching (input.drop cursor)]
  | fuel + 1, cursor =>
    match findMatch pats input (input.length - cursor) cursor with
    | none =>
      if input.length ≤ cursor then [] else [StreamChunk.NonMatching (input.drop cursor)]
    | some (s, i) =>
      let p := pats.getD i []
      let lit := (input.drop cursor).take (s - cursor)
      let rest := scanAux pats input fuel (s + p.length)
      if lit.isEmpty then StreamChunk.Matching i :: rest
      else StreamChunk.NonMatching lit :: StreamChunk.Matching i :: rest

/-- Modelled from the spec (§4.3): the full segment sequence the scanner
emits for `input` over the search patterns `pats`. -/
def scan (pats : List Bytes) (input : Bytes) : List StreamChunk :=
  scanAux pats input (input.length + 1) 0

/-- The original bytes a segment stands for: literal bytes, or the matched
pattern's own bytes for a match. -/
def originalBytes (pats : List Bytes) : StreamChunk → Bytes
  | StreamChunk.NonMatching bs => bs
  | StreamChunk.Matching i => pats.getD i []

/-- Concatenation of the original bytes of a segment sequence, in emission
order. -/
def reconstruct (pats : List Bytes) (chunks : List StreamChunk) : Bytes :=
  (chunks.map (originalBytes pats)).flatten

/-- The conversion pipeline of `run` (src/conversion.rs lines 21-48) for one
key-iteration order `keys` of the pattern table: build the search patterns
and the lookup map (`none` models the construction panic), scan the input,
and drive the substitution. The scanner itself is modelled from the spec
(see above). -/
def run (keys : List Bytes) (tbl : PatternTable) (input : Bytes) : Option Bytes :=
  match mkLookupMap tbl keys with
  | none => none
  | some lm => runDriver lm (scan (searchPatterns keys) input)

/-! ## Output close protocol and the in-place run (src/config.rs, src/conversion.rs) -/

/-- File names (paths inside the destination's directory; the temporary and
backup files are placed next to the destination) as character lists. -/
abbrev Path := List Char

/-- The file system restricted to that directory: contents by file name,
`none` when the file does not exist. -/
abbrev FS := Path → Option Bytes

/-- `fs::File::create` — truncating create. -/
def createFile (p : Path) (fs : FS) : FS :=
  fun q => if q = p then some [] else fs q

/-- A successful `write_all` on the open handle for `p`. -/
def appendFile (p : Path) (bs : Bytes) (fs : FS) : FS :=
  fun q => if q = p then some ((fs p).getD [] ++ bs) else fs q

/-- `atomicwrites::replace_atomic(src, dst)`: `dst` takes `src`'s contents and
`src` disappears in one atomic step; an existing `dst` is silently
overwritten. -/
def replace_atomic (src dst : Path) (fs : FS) : FS :=
  fun q => if q = dst then fs src else if q = src then none else fs q

/-- The backup path of `Output::close_in_place` (src/config.rs lines
138-143): `.bak` appended to the destination's file name. -/
def backupPath (dest : Path) : Path := dest ++ ".bak".toList

/-- The temporary path chosen by `Output::from_args` for in-place mode
(src/config.rs lines 228-235): `.~` prefixed and `.tmp` appended to the
destination's file name. -/
def tmpPath (dest : Path) : Path := ".~".toList ++ dest ++ ".tmp".toList

/-- `Output::close_in_place` (src/config.rs lines 136-162): when backup is
requested, first atomically move the destination to the backup path
(silently overwriting any prior backup), then atomically move the
temporary file over the destination. -/
def close_in_place (dest : Path) (backup : Bool) (fs : FS) : FS :=
  let fs1 := if backup then replace_atomic dest (backupPath dest) fs else fs
  replace_atomic (tmpPath dest) dest fs1

/-- The conversion loop's writes: for each chunk, the bytes handed to
`write_all` and whether that write succeeds; the first failing write aborts
with an `fsio::OUTPUT` error (src/conversion.rs lines 44-47). -/
def writeChunksFS (tmp : Path) : List (Bytes × Bool) → FS → FS × Option UniError
  | [], fs => (fs, none)
  | (bs, ok) :: rest, fs =>
    if ok then writeChunksFS tmp rest (appendFile tmp bs fs)
    else (fs, some (UniError.new code_fsio_OUTPUT (UniErrorData.Io ⟨"write"⟩)))

/-- `run` for an in-place output (src/conversion.rs lines 26-52 with
`Output::open`/`Output::close`, src/config.rs lines 106-162): open the
output — creating the temporary file —, open the input, stream the chunk
writes into the temporary file, and only when everything succeeded close
the output: flush and drop the handle, then back up, then atomically
rename. Returns the final file system and `none` on success or the error
that aborted the run (in which case `close` is never reached). -/
def runInPlace (dest : Path) (backup : Bool) (openOutOk openInOk : Bool)
    (ws : List (Bytes × Bool)) (fs : FS) : FS × Option UniError :=
  if openOutOk = false then
    (fs, some (detailedFromIoPath ⟨"create"⟩ "tmp" code_fsio_OUTPUT))
  else
    let fs1 := createFile (tmpPath dest) fs
    if openInOk = false then
      (fs1, some (inputOpenError "input" ⟨"open"⟩))
    else
      match writeChunksFS (tmpPath dest) ws fs1 with
      | (fs2, some e) => (fs2, some e)
      | (fs2, none) => (close_in_place dest backup fs2, none)

/-- A well-formed error value in the sense of C5: single-digit major and
minor, and the `u8` computation `major*10 + minor` does not overflow (the
reduced value equals the unreduced sum and is a two-digit number). -/
def goodError (e : UniError) : Prop :=
  e.code_major ≤ 9 ∧ e.code_minor ≤ 9 ∧
  e.error_code = e.code_major * 10 + e.code_minor ∧ e.error_code ≤ 99

/-- A result of `parse_config` is a configuration-parse failure in the
sense of the spec: a usage error returned to the caller with minor cause
`INVALID_CONFIG_FILE`. -/
def isConfigParseFailure : Option (Except UniError (List (String × String))) → Bool
  | some (Except.error e) =>
    decide (e.code_minor = code_usage_INVALID_CONFIG_FILE) &&
    (match e.data with
     | UniErrorData.Usage _ => true
     | _ => false)
  | _ => false

end ToUni

namespace ToUni

/-! ## Theorems for the error-model claims -/

/-- C4: an unopenable input file produces a file-system I/O error tagged with
the `INPUT` minor cause 2; its derived two-digit exit status is exactly 22
and in particular lies in the 2x range (20..29). -/
theorem input_open_error_status (path : String) (err : IoError) :
    (inputOpenError path err).error_code = 22 ∧
    20 ≤ (inputOpenError path err).error_code ∧
    (inputOpenError path err).error_code ≤ 29 := by
  have h : (inputOpenError path err).error_code = 22 := rfl
  refine ⟨h, ?_, ?_⟩ <;> omega

theorem goodError_of_digits {e : UniError}
    (hmaj : e.code_major ≤ 9) (hmin : e.code_minor ≤ 9) : goodError e := by
  refine ⟨hmaj, hmin, ?_, ?_⟩
  · unfold UniError.error_code
    exact Nat.mod_eq_of_lt (by omega)
  · unfold UniError.error_code
    rw [Nat.mod_eq_of_lt (by omega)]
    omega

theorem default_major_le_nine (d : UniErrorData) :
    d.default_code_major_minor.1 ≤ 9 := by
  cases d <;> simp [UniErrorData.default_code_major_minor]

theorem mem_programMinors_le_nine {m : Nat} (h : m ∈ programMinors) : m ≤ 9 :=
  (by decide : ∀ x ∈ programMinors, x ≤ 9) m h

/-- C5: every error value the program constructs — via `UniError::new`,
`usage` (also followed by `with_minor`), `From<io::Error>` and the
`DetailedFrom` conversions, always with a minor code drawn from the `code`
module constants — has a single-digit major and minor code, and
`error_code = major*10 + minor` computed in `u8` never overflows, yielding a
two-digit status. -/
theorem constructors_give_two_digit_codes
    (d : UniErrorData) (m : Nat) (msg path s : String)
    (ioe : IoError) (ye : ScanError) (hm : m ∈ programMinors) :
    goodError (UniError.new m d) ∧
    goodError (usage msg) ∧
    goodError ((usage msg).with_minor m) ∧
    goodError (fromIoError ioe) ∧
    goodError (detailedFromIoPath ioe path m) ∧
    goodError (detailedFromInternal s m) ∧
    goodError (detailedFromYamlScan ye path) := by
  have hm9 := mem_programMinors_le_nine hm
  refine ⟨?_, ?_, ?_, ?_, ?_, ?_, ?_⟩
  · exact goodError_of_digits (default_major_le_nine d) hm9
  · exact goodError_of_digits (show (1:Nat) ≤ 9 by omega) (show (0:Nat) ≤ 9 by omega)
  · exact goodError_of_digits (show (1:Nat) ≤ 9 by omega) hm9
  · exact goodError_of_digits (show (1:Nat) ≤ 9 by omega) (show (0:Nat) ≤ 9 by omega)
  · exact goodError_of_digits (show (2:Nat) ≤ 9 by omega) hm9
  · exact goodError_of_digits (show (9:Nat) ≤ 9 by omega) hm9
  · exact goodError_of_digits (show (3:Nat) ≤ 9 by omega) (show (0:Nat) ≤ 9 by omega)

/-- Witness for C5 at the concrete minor `code::fsio::INPUT = 2`. -/
theorem constructors_give_two_digit_codes_witness :
    goodError (UniError.new 2 (UniErrorData.Internal "x")) ∧ goodError (usage "x") :=
  have h := constructors_give_two_digit_codes (UniErrorData.Internal "x") 2 "x" "p" "x"
    ⟨"io"⟩ ⟨"ye"⟩ (by decide)
  ⟨h.1, h.2.1⟩

/-- C10 (code bug): `error::usage` swaps the destructured
`(major, minor)` pair, storing major 1 and minor 0, although the default
major code of the `Usage` variant is 0 (the struct's own documentation says
`00: user error`). The stored major therefore does not equal the variant's
default major. -/
theorem usage_constructor_swaps_major_minor :
    (usage "x").code_major = 1 ∧ (usage "x").code_minor = 0 ∧
    (UniErrorData.Usage "x").default_code_major_minor.1 = 0 ∧
    (usage "x").code_major ≠ (UniErrorData.Usage "x").default_code_major_minor.1 ∧
    (usage "x").error_code = 10 := by
  refine ⟨rfl, rfl, rfl, by decide, rfl⟩

/-! ## Theorems for the lookup-map and driver claims -/

theorem lookupTbl_isSome_of_mem {tbl : PatternTable} {k : Bytes}
    (h : k ∈ tbl.map Prod.fst) : (lookupTbl tbl k).isSome := by
  induction tbl with
  | nil => simp at h
  | cons e rest ih =>
    simp only [List.map_cons, List.mem_cons] at h
    by_cases hk : e.1 == k
    · simp [lookupTbl, List.find?_cons, hk]
    · rcases h with h | h
      · exact absurd (by simp [h]) hk
      · have := ih h
        simpa [lookupTbl, List.find?_cons, hk] using this

theorem lookupTbl_self {tbl : PatternTable} (hnd : (tbl.map Prod.fst).Nodup)
    {i : Nat} (hi : i < tbl.length) :
    lookupTbl tbl ((tbl.map Prod.fst).getD i []) = some ((tbl.getD i ([], [])).2) := by
  induction tbl generalizing i with
  | nil => simp at hi
  | cons e rest ih =>
    cases i with
    | zero =>
      show lookupTbl (e :: rest) e.1 = some e.2
      unfold lookupTbl
      rw [List.find?_cons_of_pos _ (by simp)]
      rfl
    | succ n =>
      have hn : n < rest.length := by simpa using hi
      have hnd0 : e.1 ∉ rest.map Prod.fst ∧ (rest.map Prod.fst).Nodup := by
        simpa [List.nodup_cons] using hnd
      have hmem : (rest.map Prod.fst).getD n [] ∈ rest.map Prod.fst := by
        rw [List.getD_eq_getElem _ _ (by simpa using hn)]
        exact List.getElem_mem _
      show lookupTbl (e :: rest) ((rest.map Prod.fst).getD n []) =
        some ((rest.getD n ([], [])).2)
      unfold lookupTbl
      rw [List.find?_cons_of_neg _ (by
        simp only [beq_iff_eq]
        intro heq
        exact hnd0.1 (heq ▸ hmem))]
      exact ih hnd0.2 hn

theorem mkLookupMapAux_eq (tbl : PatternTable) (ps : List Bytes)
    (h : ∀ p ∈ ps, (lookupTbl tbl (p.drop 1)).isSome) :
    mkLookupMapAux tbl ps =
      some (ps.map (fun p => (lookupTbl tbl (p.drop 1)).getD [])) := by
  induction ps with
  | nil => rfl
  | cons p ps ih =>
    obtain ⟨r, hr⟩ := Option.isSome_iff_exists.mp (h p (by simp))
    rw [mkLookupMapAux, hr, ih (fun q hq => h q (List.mem_cons_of_mem _ hq))]
    show some (r :: ps.map fun q => (lookupTbl tbl (q.drop 1)).getD []) =
      some ((p :: ps).map fun q => (lookupTbl tbl (q.drop 1)).getD [])
    rw [List.map_cons, hr]
    rfl

theorem mkLookupMap_keys (tbl : PatternTable) (keys : List Bytes)
    (h : ∀ k ∈ keys, (lookupTbl tbl k).isSome) :
    mkLookupMap tbl keys = some (keys.map (fun k => (lookupTbl tbl k).getD [])) := by
  unfold mkLookupMap searchPatterns
  rw [mkLookupMapAux_eq]
  · apply congrArg
    rw [List.map_map]
    apply List.map_congr_left
    intro k _
    rfl
  · intro p hp
    simp only [List.mem_map] at hp
    obtain ⟨k, hk, rfl⟩ := hp
    simpa using h k hk

theorem lookupMap_entry (tbl : PatternTable) (hnd : (tbl.map Prod.fst).Nodup)
    {i : Nat} (hi : i < tbl.length) :
    ((tbl.map Prod.fst).map (fun k => (lookupTbl tbl k).getD []))[i]? =
      some ((tbl.getD i ([], [])).2) := by
  have hikey : i < (tbl.map Prod.fst).length := by simpa using hi
  rw [List.getElem?_map, List.getElem?_eq_getElem hikey]
  have hkey : (tbl.map Prod.fst)[i] = (tbl.map Prod.fst).getD i [] :=
    (List.getD_eq_getElem _ _ hikey).symm
  show some ((lookupTbl tbl (tbl.map Prod.fst)[i]).getD []) = _
  rw [hkey, lookupTbl_self hnd hi]
  rfl

/-- C8: every search pattern handed to the automaton is the escape marker
followed by a configured bare token, and for every pattern index below the
number of patterns the lookup-map construction and the table lookup of the
marker-stripped token both succeed, returning the replacement configured
for that token. -/
theorem automaton_lookup_never_fails (tbl : PatternTable)
    (hnd : (tbl.map Prod.fst).Nodup) (i : Nat) (hi : i < tbl.length) :
    (searchPatterns (tbl.map Prod.fst)).getD i [] =
      escMarker :: ((tbl.map Prod.fst).getD i []) ∧
    lookupTbl tbl (((searchPatterns (tbl.map Prod.fst)).getD i []).drop 1) =
      some ((tbl.getD i ([], [])).2) ∧
    (mkLookupMap tbl (tbl.map Prod.fst)).isSome ∧
    ((mkLookupMap tbl (tbl.map Prod.fst)).getD [])[i]? =
      some ((tbl.getD i ([], [])).2) := by
  have hikey : i < (tbl.map Prod.fst).length := by simpa using hi
  have hpat : (searchPatterns (tbl.map Prod.fst)).getD i [] =
      escMarker :: ((tbl.map Prod.fst).getD i []) := by
    unfold searchPatterns
    rw [List.getD_eq_getElem _ _ (by simpa using hikey),
      List.getD_eq_getElem _ _ hikey, List.getElem_map]
  have hsome := mkLookupMap_keys tbl (tbl.map Prod.fst)
    (fun k hk => lookupTbl_isSome_of_mem hk)
  refine ⟨hpat, ?_, ?_, ?_⟩
  · rw [hpat]
    simpa using lookupTbl_self hnd hi
  · rw [hsome]; rfl
  · rw [hsome]
    simpa using lookupMap_entry tbl hnd hi

/-- Witness for C8 at a one-entry table. -/
theorem automaton_lookup_never_fails_witness :
    (searchPatterns ([([97], [100])].map Prod.fst)).getD 0 [] = [92, 97] ∧
    ((mkLookupMap [([97], [100])] ([([97], [100])].map Prod.fst)).getD [])[0]? =
      some [100] :=
  have h := automaton_lookup_never_fails [([97], [100])] (by decide) 0 (by decide)
  ⟨h.1, h.2.2.2⟩

theorem runDriverAux_eq (lm : List Bytes) (chunks : List StreamChunk) (acc : Bytes)
    (h : ∀ i, StreamChunk.Matching i ∈ chunks → i < lm.length) :
    runDriverAux lm chunks acc =
      some (acc ++ (chunks.map (fun c => (writeChunk lm c).getD [])).flatten) := by
  induction chunks generalizing acc with
  | nil => simp [runDriverAux]
  | cons c cs ih =>
    have hc : (writeChunk lm c).isSome := by
      cases c with
      | Matching i =>
        have := h i (by simp)
        simp [writeChunk, List.getElem?_eq_getElem this]
      | NonMatching bs => simp [writeChunk]
    obtain ⟨bs, hbs⟩ := Option.isSome_iff_exists.mp hc
    rw [runDriverAux, hbs]
    show runDriverAux lm cs (acc ++ bs) = _
    rw [ih _ (fun i hi => h i (List.mem_cons_of_mem _ hi))]
    simp [hbs, List.append_assoc]

/-- C1: the substitution driver writes, for every `NonMatching` segment its
raw bytes unchanged and for every `Matching` segment the replacement
configured for the matched pattern, in the scanner's emission order; the
concatenation of everything written equals the concatenation of literal
bytes and replacement bytes in that order. -/
theorem driver_writes_literals_and_replacements (tbl : PatternTable)
    (chunks : List StreamChunk) (hnd : (tbl.map Prod.fst).Nodup)
    (hvalid : ∀ i, StreamChunk.Matching i ∈ chunks → i < tbl.length) :
    runDriver ((mkLookupMap tbl (tbl.map Prod.fst)).getD []) chunks =
      some ((chunks.map (renderChunk tbl)).flatten) := by
  have hk : ∀ k ∈ tbl.map Prod.fst, (lookupTbl tbl k).isSome :=
    fun k hk => lookupTbl_isSome_of_mem hk
  have hmap := mkLookupMap_keys tbl (tbl.map Prod.fst) hk
  have hlm : (mkLookupMap tbl (tbl.map Prod.fst)).getD [] =
      (tbl.map Prod.fst).map (fun k => (lookupTbl tbl k).getD []) := by
    rw [hmap]; rfl
  have hlen : ((tbl.map Prod.fst).map (fun k => (lookupTbl tbl k).getD [])).length =
      tbl.length := by simp
  rw [hlm, runDriver,
    runDriverAux_eq _ chunks [] (fun i hi => hlen ▸ hvalid i hi)]
  simp only [List.nil_append]
  refine congrArg some (congrArg List.flatten (List.map_congr_left ?_))
  intro c hc
  cases c with
  | NonMatching bs => rfl
  | Matching i =>
    have hi := hvalid i hc
    simp only [writeChunk, renderChunk]
    rw [lookupMap_entry tbl hnd hi]
    rfl

/-- Witness for C1: one literal and one match over a one-entry table. -/
theorem driver_writes_literals_and_replacements_witness :
    runDriver ((mkLookupMap [([97], [100, 101])]
        ([([97], [100, 101])].map Prod.fst)).getD [])
      [StreamChunk.NonMatching [1, 2], StreamChunk.Matching 0] =
      some [1, 2, 100, 101] := by
  have hval : ∀ i, StreamChunk.Matching i ∈
      [StreamChunk.NonMatching [1, 2], StreamChunk.Matching 0] → i < 1 := by
    intro i hi
    rcases List.mem_cons.mp hi with h | hi2
    · cases h
    · rcases List.mem_cons.mp hi2 with h | h
      · cases h; omega
      · cases h
  have h := driver_writes_literals_and_replacements [([97], [100, 101])]
    [StreamChunk.NonMatching [1, 2], StreamChunk.Matching 0] (by decide) hval
  rw [h]
  rfl

/-! ## Theorems for the scanner claims -/

theorem mem_candIdxs {pats : List Bytes} {input : Bytes} {s i : Nat} :
    i ∈ candIdxs pats input s ↔
      i < pats.length ∧ matchesAtB input (pats.getD i []) s := by
  simp [candIdxs, List.mem_filter, List.mem_range]

theorem matchesAtB_elim {input p : Bytes} {s : Nat}
    (h : matchesAtB input p s = true) :
    p ≠ [] ∧ p = (input.drop s).take p.length ∧ s + p.length ≤ input.length := by
  unfold matchesAtB at h
  rw [Bool.and_eq_true] at h
  have hne : p ≠ [] := by
    intro hnil
    rw [hnil] at h
    simp at h
  have hpre : p <+: input.drop s := by
    have := h.2
    rwa [ List.isPrefixOf_iff_prefix] at this
  refine ⟨hne, List.prefix_iff_eq_take.mp hpre, ?_⟩
  have hlen := hpre.length_le
  rw [List.length_drop] at hlen
  have hplen : 0 < p.length := List.length_pos.mpr hne
  omega

theorem shorterIdx_cases (pats : List Bytes) (c d : Nat) :
    shorterIdx pats c d = c ∨ shorterIdx pats c d = d := by
  unfold shorterIdx
  split
  · right; rfl
  · left; rfl

theorem shorterIdx_le_left (pats : List Bytes) (c d : Nat) :
    (pats.getD (shorterIdx pats c d) []).length ≤ (pats.getD c []).length := by
  unfold shorterIdx
  split <;> omega

theorem shorterIdx_le_right (pats : List Bytes) (c d : Nat) :
    (pats.getD (shorterIdx pats c d) []).length ≤ (pats.getD d []).length := by
  unfold shorterIdx
  split <;> omega

theorem foldl_shorterIdx_mem (pats : List Bytes) :
    ∀ (cs : List Nat) (c : Nat),
      cs.foldl (shorterIdx pats) c = c ∨ cs.foldl (shorterIdx pats) c ∈ cs
  | [], _ => Or.inl rfl
  | d :: ds, c => by
    rw [List.foldl_cons]
    rcases foldl_shorterIdx_mem pats ds (shorterIdx pats c d) with h | h
    · rcases shorterIdx_cases pats c d with h2 | h2
      · left; rw [h, h2]
      · right; rw [h, h2]; simp
    · right; exact List.mem_cons_of_mem _ h

theorem foldl_shorterIdx_min (pats : List Bytes) :
    ∀ (cs : List Nat) (c j : Nat), (j = c ∨ j ∈ cs) →
      (pats.getD (cs.foldl (shorterIdx pats) c) []).length ≤
        (pats.getD j []).length
  | [], c, j, h => by
    rcases h with rfl | h
    · exact le_refl _
    · simp at h
  | d :: ds, c, j, h => by
    rw [List.foldl_cons]
    have hacc := foldl_shorterIdx_min pats ds (shorterIdx pats c d)
      (shorterIdx pats c d) (Or.inl rfl)
    rcases h with rfl | h
    · exact le_trans hacc (shorterIdx_le_left pats j d)
    · rcases List.mem_cons.mp h with rfl | h
      · exact le_trans hacc (shorterIdx_le_right pats c j)
      · exact foldl_shorterIdx_min pats ds (shorterIdx pats c d) j (Or.inr h)

theorem shortestIdx_mem (pats : List Bytes) (c : Nat) (cs : List Nat) :
    shortestIdx pats (c :: cs) ∈ c :: cs := by
  show cs.foldl (shorterIdx pats) c ∈ c :: cs
  rcases foldl_shorterIdx_mem pats cs c with h | h
  · rw [h]; simp
  · exact List.mem_cons_of_mem _ h

theorem shortestIdx_min (pats : List Bytes) (c : Nat) (cs : List Nat)
    {j : Nat} (hj : j ∈ c :: cs) :
    (pats.getD (shortestIdx pats (c :: cs)) []).length ≤ (pats.getD j []).length := by
  show (pats.getD (cs.foldl (shorterIdx pats) c) []).length ≤ _
  rcases List.mem_cons.mp hj with rfl | h
  · exact foldl_shorterIdx_min pats cs j j (Or.inl rfl)
  · exact foldl_shorterIdx_min pats cs c j (Or.inr h)

theorem findMatch_some {pats : List Bytes} {input : Bytes} {fuel s0 s i : Nat}
    (h : findMatch pats input fuel s0 = some (s, i)) :
    s0 ≤ s ∧ i ∈ candIdxs pats input s ∧
      ∀ j ∈ candIdxs pats input s,
        (pats.getD i []).length ≤ (pats.getD j []).length := by
  induction fuel generalizing s0 with
  | zero => simp [findMatch] at h
  | succ n ih =>
    rw [findMatch] at h
    cases hc : candIdxs pats input s0 with
    | nil =>
      rw [hc] at h
      have := ih h
      exact ⟨le_trans (Nat.le_succ s0) this.1, this.2⟩
    | cons c cs =>
      rw [hc] at h
      have hs : s0 = s ∧ shortestIdx pats (c :: cs) = i := by
        simpa [Prod.ext_iff] using h
      obtain ⟨rfl, rfl⟩ := hs
      refine ⟨le_refl s0, ?_, ?_⟩
      · rw [hc]; exact shortestIdx_mem pats c cs
      · intro j hj
        rw [hc] at hj
        exact shortestIdx_min pats c cs hj

theorem splice_eq (input p : Bytes) (cursor s : Nat) (hcs : cursor ≤ s)
    (hp : p = (input.drop s).take p.length) :
    (input.drop cursor).take (s - cursor) ++ (p ++ input.drop (s + p.length)) =
      input.drop cursor := by
  obtain ⟨L, hL⟩ : ∃ L, p.length = L := ⟨_, rfl⟩
  rw [hL] at hp
  have hdrop2 : input.drop (s + L) = (input.drop s).drop L :=
    (List.drop_drop L s input).symm
  have hdrop1 : input.drop s = (input.drop cursor).drop (s - cursor) := by
    rw [List.drop_drop]
    congr 1
    omega
  rw [hL, hdrop2]
  conv_lhs => rw [hp]
  rw [List.take_append_drop, hdrop1, List.take_append_drop]

theorem reconstruct_nil (pats : List Bytes) : reconstruct pats [] = [] := rfl

theorem reconstruct_cons (pats : List Bytes) (c : StreamChunk)
    (cs : List StreamChunk) :
    reconstruct pats (c :: cs) = originalBytes pats c ++ reconstruct pats cs := by
  simp [reconstruct]

theorem reconstruct_scanAux (pats : List Bytes) (input : Bytes) :
    ∀ (fuel cursor : Nat), input.length - cursor < fuel →
      reconstruct pats (scanAux pats input fuel cursor) = input.drop cursor := by
  intro fuel
  induction fuel with
  | zero => intro cursor h; omega
  | succ n ih =>
    intro cursor h
    rw [scanAux]
    cases hfm : findMatch pats input (input.length - cursor) cursor with
    | none =>
      by_cases hc : input.length ≤ cursor
      · simp [hc, reconstruct, originalBytes, List.drop_eq_nil_of_le hc]
      · simp [hc, reconstruct, originalBytes]
    | some si =>
      obtain ⟨s, i⟩ := si
      obtain ⟨hcur, hcand, _⟩ := findMatch_some hfm
      obtain ⟨_, hmB⟩ := mem_candIdxs.mp hcand
      obtain ⟨hpne, hptake, hsend⟩ := matchesAtB_elim hmB
      have hplen : 0 < (pats.getD i []).length := List.length_pos.mpr hpne
      have hrest := ih (s + (pats.getD i []).length) (by omega)
      have hmain := splice_eq input (pats.getD i []) cursor s hcur hptake
      show reconstruct pats
          (if ((input.drop cursor).take (s - cursor)).isEmpty = true
           then StreamChunk.Matching i ::
             scanAux pats input n (s + (pats.getD i []).length)
           else StreamChunk.NonMatching ((input.drop cursor).take (s - cursor)) ::
             StreamChunk.Matching i ::
             scanAux pats input n (s + (pats.getD i []).length)) =
        input.drop cursor
      by_cases hlit : ((input.drop cursor).take (s - cursor)).isEmpty = true
      · have hlitnil : (input.drop cursor).take (s - cursor) = [] :=
          List.isEmpty_iff.mp hlit
        rw [if_pos hlit, reconstruct_cons, hrest]
        show pats.getD i [] ++ input.drop (s + (pats.getD i []).length) =
          input.drop cursor
        rw [hlitnil] at hmain
        simpa using hmain
      · rw [if_neg hlit, reconstruct_cons, reconstruct_cons, hrest]
        show (input.drop cursor).take (s - cursor) ++
          (pats.getD i [] ++ input.drop (s + (pats.getD i []).length)) =
          input.drop cursor
        exact hmain

/-- C2: the segment sequence the scanner emits is a lossless partition of
the input: concatenating the literal bytes and the original matched bytes
of each match, in emission order, reconstructs the input exactly. -/
theorem scanner_lossless (pats : List Bytes) (input : Bytes) :
    reconstruct pats (scan pats input) = input := by
  have h := reconstruct_scanAux pats input (input.length + 1) 0 (by omega)
  simpa using h

/-! ## Theorems for the determinism claim -/

theorem getD_mem_of_lt {l : List Bytes} {i : Nat} (h : i < l.length) :
    l.getD i [] ∈ l := by
  rw [List.getD_eq_getElem _ _ h]
  exact List.getElem_mem h

theorem candIdxs_eq_nil_iff {pats : List Bytes} {input : Bytes} {s : Nat} :
    candIdxs pats input s = [] ↔ ∀ p ∈ pats, matchesAtB input p s = false := by
  rw [List.eq_nil_iff_forall_not_mem]
  constructor
  · intro h p hp
    obtain ⟨i, hi, hieq⟩ := List.mem_iff_getElem.mp hp
    by_contra hfalse
    have hmt : matchesAtB input (pats.getD i []) s = true := by
      rw [List.getD_eq_getElem _ _ hi, hieq]
      revert hfalse
      cases matchesAtB input p s <;> simp
    exact h i (mem_candIdxs.mpr ⟨hi, hmt⟩)
  · intro h i hi
    obtain ⟨hlen, hmt⟩ := mem_candIdxs.mp hi
    have := h (pats.getD i []) (getD_mem_of_lt hlen)
    rw [this] at hmt
    exact Bool.false_ne_true hmt

theorem candIdxs_nil_of_perm {pats₁ pats₂ : List Bytes} {input : Bytes} {s : Nat}
    (hperm : pats₁.Perm pats₂) (h : candIdxs pats₁ input s = []) :
    candIdxs pats₂ input s = [] := by
  rw [candIdxs_eq_nil_iff] at h ⊢
  intro p hp
  exact h p (hperm.symm.subset hp)

theorem exists_candIdx_of_matching {pats : List Bytes} {input : Bytes} {s : Nat}
    {q : Bytes} (hq : q ∈ pats) (hm : matchesAtB input q s = true) :
    ∃ j ∈ candIdxs pats input s, pats.getD j [] = q := by
  obtain ⟨j, hj, hjq⟩ := List.mem_iff_getElem.mp hq
  have hgd : pats.getD j [] = q := by
    rw [List.getD_eq_getElem _ _ hj, hjq]
  exact ⟨j, mem_candIdxs.mpr ⟨hj, hgd ▸ hm⟩, hgd⟩

theorem shortest_le_cross {pats₁ pats₂ : List Bytes} {input : Bytes} {s : Nat}
    {c₁ : Nat} {cs₁ : List Nat} (hperm : pats₁.Perm pats₂)
    (h1 : candIdxs pats₁ input s = c₁ :: cs₁) {j : Nat}
    (hj : j ∈ candIdxs pats₂ input s) :
    (pats₁.getD (shortestIdx pats₁ (c₁ :: cs₁)) []).length ≤
      (pats₂.getD j []).length := by
  obtain ⟨hjlen, hjm⟩ := mem_candIdxs.mp hj
  have hqmem : pats₂.getD j [] ∈ pats₁ :=
    hperm.symm.subset (getD_mem_of_lt hjlen)
  obtain ⟨j', hj'cand, hj'eq⟩ := exists_candIdx_of_matching hqmem hjm
  have hmin := shortestIdx_min pats₁ c₁ cs₁ (h1 ▸ hj'cand)
  rw [hj'eq] at hmin
  exact hmin

theorem chosen_content_eq {pats₁ pats₂ : List Bytes} {input : Bytes} {s : Nat}
    {c₁ c₂ : Nat} {cs₁ cs₂ : List Nat} (hperm : pats₁.Perm pats₂)
    (h1 : candIdxs pats₁ input s = c₁ :: cs₁)
    (h2 : candIdxs pats₂ input s = c₂ :: cs₂) :
    pats₁.getD (shortestIdx pats₁ (c₁ :: cs₁)) [] =
      pats₂.getD (shortestIdx pats₂ (c₂ :: cs₂)) [] := by
  have hm1 : shortestIdx pats₁ (c₁ :: cs₁) ∈ candIdxs pats₁ input s :=
    h1 ▸ shortestIdx_mem pats₁ c₁ cs₁
  have hm2 : shortestIdx pats₂ (c₂ :: cs₂) ∈ candIdxs pats₂ input s :=
    h2 ▸ shortestIdx_mem pats₂ c₂ cs₂
  obtain ⟨_, hmt1⟩ := mem_candIdxs.mp hm1
  obtain ⟨_, hmt2⟩ := mem_candIdxs.mp hm2
  obtain ⟨_, htake1, _⟩ := matchesAtB_elim hmt1
  obtain ⟨_, htake2, _⟩ := matchesAtB_elim hmt2
  have hle12 := shortest_le_cross hperm h1 hm2
  have hle21 := shortest_le_cross hperm.symm h2 hm1
  have hlen : (pats₁.getD (shortestIdx pats₁ (c₁ :: cs₁)) []).length =
      (pats₂.getD (shortestIdx pats₂ (c₂ :: cs₂)) []).length :=
    Nat.le_antisymm hle12 hle21
  rw [htake1, htake2, hlen]

theorem findMatch_perm_none {pats₁ pats₂ : List Bytes}
    (hperm : pats₁.Perm pats₂) (input : Bytes) :
    ∀ (fuel s0 : Nat), findMatch pats₁ input fuel s0 = none →
      findMatch pats₂ input fuel s0 = none := by
  intro fuel
  induction fuel with
  | zero => intro s0 _; rfl
  | succ n ih =>
    intro s0 h
    rw [findMatch] at h ⊢
    cases hc1 : candIdxs pats₁ input s0 with
    | nil =>
      rw [hc1] at h
      rw [candIdxs_nil_of_perm hperm hc1]
      exact ih _ h
    | cons c cs =>
      rw [hc1] at h
      simp at h

theorem findMatch_perm_some {pats₁ pats₂ : List Bytes}
    (hperm : pats₁.Perm pats₂) (input : Bytes) :
    ∀ (fuel s0 s i₁ : Nat), findMatch pats₁ input fuel s0 = some (s, i₁) →
      ∃ i₂, findMatch pats₂ input fuel s0 = some (s, i₂) ∧
        pats₁.getD i₁ [] = pats₂.getD i₂ [] := by
  intro fuel
  induction fuel with
  | zero => intro s0 s i₁ h; simp [findMatch] at h
  | succ n ih =>
    intro s0 s i₁ h
    rw [findMatch] at h ⊢
    cases hc1 : candIdxs pats₁ input s0 with
    | nil =>
      rw [hc1] at h
      rw [candIdxs_nil_of_perm hperm hc1]
      exact ih _ _ _ h
    | cons c₁ cs₁ =>
      rw [hc1] at h
      have hs : s0 = s ∧ shortestIdx pats₁ (c₁ :: cs₁) = i₁ := by
        simpa [Prod.ext_iff] using h
      obtain ⟨rfl, rfl⟩ := hs
      cases hc2 : candIdxs pats₂ input s0 with
      | nil =>
        have := candIdxs_nil_of_perm hperm.symm hc2
        rw [this] at hc1
        exact absurd hc1 (List.cons_ne_nil c₁ cs₁).symm
      | cons c₂ cs₂ =>
        refine ⟨shortestIdx pats₂ (c₂ :: cs₂), rfl, ?_⟩
        exact chosen_content_eq hperm hc1 hc2

theorem runDriverAux_cons (lm : List Bytes) (c : StreamChunk)
    (cs : List StreamChunk) (acc bs : Bytes) (h : writeChunk lm c = some bs) :
    runDriverAux lm (c :: cs) acc = runDriverAux lm cs (acc ++ bs) := by
  rw [runDriverAux, h]

theorem runDriverAux_scanAux_perm (tbl : PatternTable) {keys₁ keys₂ : List Bytes}
    (hperm : keys₁.Perm keys₂) (input : Bytes) :
    ∀ (fuel cursor : Nat) (acc : Bytes),
      runDriverAux (keys₁.map fun k => (lookupTbl tbl k).getD [])
        (scanAux (searchPatterns keys₁) input fuel cursor) acc =
      runDriverAux (keys₂.map fun k => (lookupTbl tbl k).getD [])
        (scanAux (searchPatterns keys₂) input fuel cursor) acc := by
  have hpperm : (searchPatterns keys₁).Perm (searchPatterns keys₂) :=
    hperm.map _
  intro fuel
  induction fuel with
  | zero =>
    intro cursor acc
    rw [scanAux, scanAux]
    by_cases hc : input.length ≤ cursor
    · rw [if_pos hc]; rfl
    · rw [if_neg hc]; rfl
  | succ n ih =>
    intro cursor acc
    rw [scanAux, scanAux]
    cases hfm1 : findMatch (searchPatterns keys₁) input
        (input.length - cursor) cursor with
    | none =>
      have hfm2 := findMatch_perm_none hpperm input _ _ hfm1
      rw [hfm2]
      show runDriverAux (keys₁.map fun k => (lookupTbl tbl k).getD [])
          (if input.length ≤ cursor then []
           else [StreamChunk.NonMatching (input.drop cursor)]) acc =
        runDriverAux (keys₂.map fun k => (lookupTbl tbl k).getD [])
          (if input.length ≤ cursor then []
           else [StreamChunk.NonMatching (input.drop cursor)]) acc
      by_cases hc : input.length ≤ cursor
      · rw [if_pos hc]; rfl
      · rw [if_neg hc]; rfl
    | some si =>
      obtain ⟨s, i₁⟩ := si
      obtain ⟨i₂, hfm2, hcontent⟩ := findMatch_perm_some hpperm input _ _ _ _ hfm1
      rw [hfm2]
      obtain ⟨_, hcand1, _⟩ := findMatch_some hfm1
      obtain ⟨_, hcand2, _⟩ := findMatch_some hfm2
      have hi1 : i₁ < keys₁.length := by
        have := (mem_candIdxs.mp hcand1).1
        simpa [searchPatterns] using this
      have hi2 : i₂ < keys₂.length := by
        have := (mem_candIdxs.mp hcand2).1
        simpa [searchPatterns] using this
      have hpat1 : (searchPatterns keys₁).getD i₁ [] =
          escMarker :: keys₁.getD i₁ [] := by
        unfold searchPatterns
        rw [List.getD_eq_getElem _ _ (by simpa using hi1),
          List.getD_eq_getElem _ _ hi1, List.getElem_map]
      have hpat2 : (searchPatterns keys₂).getD i₂ [] =
          escMarker :: keys₂.getD i₂ [] := by
        unfold searchPatterns
        rw [List.getD_eq_getElem _ _ (by simpa using hi2),
          List.getD_eq_getElem _ _ hi2, List.getElem_map]
      have hkeyeq : keys₁.getD i₁ [] = keys₂.getD i₂ [] := by
        have := hcontent
        rw [hpat1, hpat2] at this
        exact List.cons.injEq .. ▸ this |>.2
      have hlen : ((searchPatterns keys₁).getD i₁ []).length =
          ((searchPatterns keys₂).getD i₂ []).length := by
        rw [hcontent]
      have hw1 : writeChunk (keys₁.map fun k => (lookupTbl tbl k).getD [])
          (StreamChunk.Matching i₁) =
          some ((lookupTbl tbl (keys₁.getD i₁ [])).getD []) := by
        show (keys₁.map fun k => (lookupTbl tbl k).getD [])[i₁]? = _
        rw [List.getElem?_map, List.getElem?_eq_getElem hi1]
        rw [show keys₁[i₁] = keys₁.getD i₁ [] from
          (List.getD_eq_getElem _ _ hi1).symm]
        rfl
      have hw2 : writeChunk (keys₂.map fun k => (lookupTbl tbl k).getD [])
          (StreamChunk.Matching i₂) =
          some ((lookupTbl tbl (keys₂.getD i₂ [])).getD []) := by
        show (keys₂.map fun k => (lookupTbl tbl k).getD [])[i₂]? = _
        rw [List.getElem?_map, List.getElem?_eq_getElem hi2]
        rw [show keys₂[i₂] = keys₂.getD i₂ [] from
          (List.getD_eq_getElem _ _ hi2).symm]
        rfl
      show runDriverAux (keys₁.map fun k => (lookupTbl tbl k).getD [])
          (if ((input.drop cursor).take (s - cursor)).isEmpty = true
           then StreamChunk.Matching i₁ ::
             scanAux (searchPatterns keys₁) input n
               (s + ((searchPatterns keys₁).getD i₁ []).length)
           else StreamChunk.NonMatching ((input.drop cursor).take (s - cursor)) ::
             StreamChunk.Matching i₁ ::
             scanAux (searchPatterns keys₁) input n
               (s + ((searchPatterns keys₁).getD i₁ []).length)) acc =
        runDriverAux (keys₂.map fun k => (lookupTbl tbl k).getD [])
          (if ((input.drop cursor).take (s - cursor)).isEmpty = true
           then StreamChunk.Matching i₂ ::
             scanAux (searchPatterns keys₂) input n
               (s + ((searchPatterns keys₂).getD i₂ []).length)
           else StreamChunk.NonMatching ((input.drop cursor).take (s - cursor)) ::
             StreamChunk.Matching i₂ ::
             scanAux (searchPatterns keys₂) input n
               (s + ((searchPatterns keys₂).getD i₂ []).length)) acc
      have hw2' : writeChunk (keys₂.map fun k => (lookupTbl tbl k).getD [])
          (StreamChunk.Matching i₂) =
          some ((lookupTbl tbl (keys₁.getD i₁ [])).getD []) := by
        rw [hw2, hkeyeq]
      rw [← hlen]
      by_cases hlit : ((input.drop cursor).take (s - cursor)).isEmpty = true
      · rw [if_pos hlit, if_pos hlit,
          runDriverAux_cons _ _ _ _ _ hw1, runDriverAux_cons _ _ _ _ _ hw2']
        exact ih _ _
      · rw [if_neg hlit, if_neg hlit,
          runDriverAux_cons _ _ _ _ _ (show writeChunk _ (StreamChunk.NonMatching
            ((input.drop cursor).take (s - cursor))) = some _ from rfl),
          runDriverAux_cons _ _ _ _ _ (show writeChunk _ (StreamChunk.NonMatching
            ((input.drop cursor).take (s - cursor))) = some _ from rfl),
          runDriverAux_cons _ _ _ _ _ hw1, runDriverAux_cons _ _ _ _ _ hw2']
        exact ih _ _

/-- C9: for a fixed pattern table and fixed input the conversion output is
byte-identical across runs, independently of the iteration order in which
the table's entries are fed to the automaton construction. -/
theorem run_deterministic_order_independent (tbl : PatternTable) (input : Bytes)
    (keys₁ keys₂ : List Bytes) (h1 : keys₁.Perm (tbl.map Prod.fst))
    (h2 : keys₂.Perm (tbl.map Prod.fst)) :
    run keys₁ tbl input = run keys₂ tbl input := by
  have hperm : keys₁.Perm keys₂ := h1.trans h2.symm
  have hs1 : ∀ k ∈ keys₁, (lookupTbl tbl k).isSome := fun k hk =>
    lookupTbl_isSome_of_mem (h1.subset hk)
  have hs2 : ∀ k ∈ keys₂, (lookupTbl tbl k).isSome := fun k hk =>
    lookupTbl_isSome_of_mem (h2.subset hk)
  rw [run, run, mkLookupMap_keys tbl keys₁ hs1, mkLookupMap_keys tbl keys₂ hs2]
  show runDriver _ (scan (searchPatterns keys₁) input) =
    runDriver _ (scan (searchPatterns keys₂) input)
  unfold runDriver scan
  exact runDriverAux_scanAux_perm tbl hperm input (input.length + 1) 0 []

/-- Witness for C9: a two-entry table fed in both iteration orders. -/
theorem run_deterministic_order_independent_witness :
    run [[97], [98]] [([97], [65]), ([98], [66])] [92, 97, 98] =
      run [[98], [97]] [([97], [65]), ([98], [66])] [92, 97, 98] :=
  run_deterministic_order_independent [([97], [65]), ([98], [66])] [92, 97, 98]
    [[97], [98]] [[98], [97]] (by decide) (by decide)

/-! ## Theorems for the configuration-parsing claims -/

/-- C6 (code bug): a top-level mapping without a `patterns` key makes
`parse_config` panic — the map `Index` of `top_level[&pattern_key]` on a
missing key aborts the process (`none`) instead of returning a
configuration-parse failure. The other shape violations (non-mapping top
level, non-string key, non-string value, `patterns` not a mapping) do
return usage errors with minor `INVALID_CONFIG_FILE` as claimed. -/
theorem parse_config_missing_patterns_crashes :
    parse_config (Yaml.hash [(Yaml.str "foo", Yaml.str "bar")]) = none ∧
    isConfigParseFailure (parse_config (Yaml.int 3)) = true ∧
    isConfigParseFailure (parse_config
      (Yaml.hash [(Yaml.str "patterns", Yaml.str "oops")])) = true ∧
    isConfigParseFailure (parse_config
      (Yaml.hash [(Yaml.str "patterns", Yaml.hash [(Yaml.int 1, Yaml.str "v")])])) = true ∧
    isConfigParseFailure (parse_config
      (Yaml.hash [(Yaml.str "patterns", Yaml.hash [(Yaml.str "k", Yaml.int 2)])])) = true := by
  refine ⟨rfl, rfl, rfl, rfl, rfl⟩

/-- C7 counterexample: a `patterns` mapping with two entries that collide
(identical bare token, hence identical search pattern after prefixing) is
accepted: `parse_config` returns `Ok` and silently keeps the later entry,
rather than failing with a usage error. -/
theorem duplicate_patterns_not_rejected :
    parse_config (Yaml.hash [(Yaml.str "patterns",
      Yaml.hash [(Yaml.str "a", Yaml.str "x"), (Yaml.str "a", Yaml.str "y")])]) =
      some (Except.ok [("a", "y")]) := rfl

/-- C7 amended: when the `patterns` mapping yields two identical search
patterns after prefixing, pattern-table construction does not fail; the
duplicate is silently collapsed, the later entry overwriting the earlier
(the `HashMap::insert` in `parse_config`). -/
theorem duplicate_patterns_silently_collapsed (k v₁ v₂ : String) :
    parse_config (Yaml.hash [(Yaml.str "patterns",
      Yaml.hash [(Yaml.str k, Yaml.str v₁), (Yaml.str k, Yaml.str v₂)])]) =
      some (Except.ok [(k, v₂)]) := by
  simp [parse_config, hashIndexPatterns, List.find?, Yaml.isPatternsKey,
    parsePatternEntries, parse_pattern_entry, insertPattern]

/-! ## Theorems for the in-place close protocol -/

theorem tmpPath_length (dest : Path) : (tmpPath dest).length = dest.length + 6 := by
  show (".~".toList ++ dest ++ ".tmp".toList).length = dest.length + 6
  rw [List.length_append, List.length_append]
  have h1 : (".~".toList).length = 2 := rfl
  have h2 : (".tmp".toList).length = 4 := rfl
  omega

theorem backupPath_length (dest : Path) :
    (backupPath dest).length = dest.length + 4 := by
  show (dest ++ ".bak".toList).length = dest.length + 4
  rw [List.length_append]
  have h1 : (".bak".toList).length = 4 := rfl
  omega

theorem tmpPath_ne_dest (dest : Path) : tmpPath dest ≠ dest := by
  intro h
  have := congrArg List.length h
  rw [tmpPath_length] at this
  omega

theorem backupPath_ne_dest (dest : Path) : backupPath dest ≠ dest := by
  intro h
  have := congrArg List.length h
  rw [backupPath_length] at this
  omega

theorem tmpPath_ne_backupPath (dest : Path) : tmpPath dest ≠ backupPath dest := by
  intro h
  have := congrArg List.length h
  rw [tmpPath_length, backupPath_length] at this
  omega

theorem writeChunksFS_other (tmp : Path) (q : Path) (hq : q ≠ tmp) :
    ∀ (ws : List (Bytes × Bool)) (fs : FS), (writeChunksFS tmp ws fs).1 q = fs q := by
  intro ws
  induction ws with
  | nil => intro fs; rfl
  | cons w rest ih =>
    intro fs
    obtain ⟨bs, ok⟩ := w
    rw [writeChunksFS]
    by_cases hok : ok = true
    · rw [if_pos hok, ih]
      show (if q = tmp then _ else fs q) = fs q
      rw [if_neg hq]
    · rw [if_neg hok]

theorem writeChunksFS_success_tmp (tmp : Path) :
    ∀ (ws : List (Bytes × Bool)) (fs : FS) (cur : Bytes), fs tmp = some cur →
      (writeChunksFS tmp ws fs).2 = none →
      (writeChunksFS tmp ws fs).1 tmp = some (cur ++ (ws.map Prod.fst).flatten) := by
  intro ws
  induction ws with
  | nil =>
    intro fs cur hcur _
    show fs tmp = _
    rw [hcur]
    simp
  | cons w rest ih =>
    intro fs cur hcur hsucc
    obtain ⟨bs, ok⟩ := w
    rw [writeChunksFS] at hsucc ⊢
    by_cases hok : ok = true
    · rw [if_pos hok] at hsucc ⊢
      have hcur' : appendFile tmp bs fs tmp = some (cur ++ bs) := by
        show (if tmp = tmp then some ((fs tmp).getD [] ++ bs) else fs tmp) = _
        rw [if_pos rfl, hcur]
        rfl
      rw [ih _ _ hcur' hsucc]
      simp [List.append_assoc]
    · rw [if_neg hok] at hsucc
      simp at hsucc

/-- C3: for the in-place output, the destination is modified only by a
successful close after the whole conversion: whenever the run aborts with
an error — output open, input open, or any chunk write — the destination's
contents are untouched; on success the close protocol leaves the converted
bytes at the destination via the atomic rename of the temporary file
(which is gone afterwards) and, when backup is enabled, the original
destination contents at the `.bak` path, silently overwriting any prior
backup. -/
theorem in_place_close_protocol (dest : Path) (backup : Bool)
    (openOutOk openInOk : Bool) (ws : List (Bytes × Bool)) (fs : FS) :
    ((runInPlace dest backup openOutOk openInOk ws fs).2 ≠ none →
      (runInPlace dest backup openOutOk openInOk ws fs).1 dest = fs dest) ∧
    ((runInPlace dest backup openOutOk openInOk ws fs).2 = none →
      (runInPlace dest backup openOutOk openInOk ws fs).1 dest =
        some ((ws.map Prod.fst).flatten) ∧
      (backup = true →
        (runInPlace dest backup openOutOk openInOk ws fs).1 (backupPath dest) =
          fs dest) ∧
      (runInPlace dest backup openOutOk openInOk ws fs).1 (tmpPath dest) = none) := by
  have htd := tmpPath_ne_dest dest
  have hbd := backupPath_ne_dest dest
  have htb := tmpPath_ne_backupPath dest
  rw [runInPlace]
  by_cases hoo : openOutOk = false
  · rw [if_pos hoo]
    refine ⟨fun _ => rfl, fun hn => absurd hn (by simp)⟩
  · rw [if_neg hoo]
    by_cases hoi : openInOk = false
    · rw [if_pos hoi]
      refine ⟨fun _ => ?_, fun hn => absurd hn (by simp)⟩
      show createFile (tmpPath dest) fs dest = fs dest
      unfold createFile
      rw [if_neg (Ne.symm htd)]
    · rw [if_neg hoi]
      cases hw : writeChunksFS (tmpPath dest) ws (createFile (tmpPath dest) fs) with
      | mk fs2 r =>
        have hfs2dest : fs2 dest = fs dest := by
          have h1 := writeChunksFS_other (tmpPath dest) dest (Ne.symm htd) ws
            (createFile (tmpPath dest) fs)
          rw [hw] at h1
          have h2 : fs2 dest = createFile (tmpPath dest) fs dest := h1
          rw [h2]
          unfold createFile
          rw [if_neg (Ne.symm htd)]
        cases r with
        | some e =>
          refine ⟨fun _ => hfs2dest, fun hn => absurd hn (by simp)⟩
        | none =>
          have htmpcontents : fs2 (tmpPath dest) =
              some ((ws.map Prod.fst).flatten) := by
            have hcreated : createFile (tmpPath dest) fs (tmpPath dest) = some [] := by
              unfold createFile
              rw [if_pos rfl]
            have h2 := writeChunksFS_success_tmp (tmpPath dest) ws
              (createFile (tmpPath dest) fs) [] hcreated (by rw [hw])
            rw [hw] at h2
            simpa using h2
          refine ⟨fun hcontra => absurd rfl hcontra, fun _ => ⟨?_, ?_, ?_⟩⟩
          · show close_in_place dest backup fs2 dest = _
            unfold close_in_place replace_atomic
            rw [if_pos rfl]
            by_cases hb : backup = true
            · rw [if_pos hb]
              show (if tmpPath dest = backupPath dest then _
                else if tmpPath dest = dest then _ else fs2 (tmpPath dest)) = _
              rw [if_neg htb, if_neg htd]
              exact htmpcontents
            · rw [if_neg hb]
              exact htmpcontents
          · intro hb
            show close_in_place dest backup fs2 (backupPath dest) = fs dest
            unfold close_in_place replace_atomic
            rw [if_neg hbd, if_neg htb.symm, if_pos hb, if_pos rfl]
            exact hfs2dest
          · show close_in_place dest backup fs2 (tmpPath dest) = none
            unfold close_in_place replace_atomic
            rw [if_neg htd, if_pos rfl]

/-- Witness for C3: a successful one-chunk in-place run over an initially
empty directory; the destination holds the written bytes and the temporary
file is gone. -/
theorem in_place_close_protocol_witness :
    (runInPlace "d".toList true true true [([7], true)] (fun _ => none)).1
      "d".toList = some [7] ∧
    (runInPlace "d".toList true true true [([7], true)] (fun _ => none)).1
      (tmpPath "d".toList) = none := by
  have h := in_place_close_protocol "d".toList true true true [([7], true)]
    (fun _ => none)
  have hnone : (runInPlace "d".toList true true true [([7], true)]
      (fun _ => none)).2 = none := rfl
  obtain ⟨hdest, _, htmp⟩ := h.2 hnone
  refine ⟨?_, htmp⟩
  rw [hdest]
  rfl

end ToUni

